import Mathlib

/-!
Shallow embedding of the UI-builder agent executor
(`src/agent/agent_executor.py`) and of the data-model update semantics
declared by the A2UI schema (`src/agent/prompt_builder.py`), together with
theorems settling the specification claims about them.

The embedding mirrors the Python source: strings are Lean `String`s, the
Python string helpers (`strip`, `lstrip`, `rstrip`, `lower`, `in`,
`split(sep, 1)`) are re-implemented with Python's semantics on character
lists, JSON parsing (`json.loads`) is an external collaborator passed as a
`String → Option Json` parameter (Python raises `JSONDecodeError` exactly
when the parameter returns `none`), and the event sink (`TaskUpdater`)
is modelled by the ordered list of emitted status updates.
-/

/-! ## Python string primitives -/

/-- Python's notion of whitespace used by `str.strip()`:
space, tab, newline, carriage return, vertical tab, form feed. -/
def pyIsSpace (c : Char) : Bool :=
  c = ' ' || c = '\t' || c = '\n' || c = '\r' || c = '\x0b' || c = '\x0c'

/-- Python `s.strip()` : drop whitespace from both ends. -/
def pyStrip (s : String) : String :=
  String.mk (((s.toList.dropWhile pyIsSpace).reverse.dropWhile pyIsSpace).reverse)

/-- Python `s.lstrip(chars)` : drop leading characters belonging to the set. -/
def pyLstrip (chars : List Char) (s : String) : String :=
  String.mk (s.toList.dropWhile (fun c => chars.contains c))

/-- Python `s.rstrip(chars)` : drop trailing characters belonging to the set. -/
def pyRstrip (chars : List Char) (s : String) : String :=
  String.mk ((s.toList.reverse.dropWhile (fun c => chars.contains c)).reverse)

/-- Python `s.lower()` (ASCII case folding, which is all the source needs). -/
def pyLower (s : String) : String :=
  String.mk (s.toList.map Char.toLower)

/-- Does `pat` occur at the head of `l`? -/
def listStartsWith : List Char → List Char → Bool
  | [], _ => true
  | _ :: _, [] => false
  | p :: ps, c :: cs => p == c && listStartsWith ps cs

/-- Split at the first occurrence of `sep` in `l`: returns the characters
before the occurrence and the characters after it. `none` when `sep` does
not occur (`sep = []` occurs everywhere, matching Python's `"" in s`). -/
def splitFirstAux (sep : List Char) : List Char → Option (List Char × List Char)
  | [] => none
  | c :: cs =>
    if listStartsWith sep (c :: cs) then
      some ([], (c :: cs).drop sep.length)
    else
      match splitFirstAux sep cs with
      | some (pre, post) => some (c :: pre, post)
      | none => none

/-- Python `sep in s` (substring containment) for a non-empty `sep`. -/
def pyContains (sep s : String) : Bool :=
  (splitFirstAux sep.toList s.toList).isSome

/-- Python `s.split(sep, 1)` unpacked into a pair: the text before the
first occurrence of `sep` and everything after it. Only evaluated by the
source under the guard `sep in s`; when the separator is absent the whole
string is returned unchanged with an empty tail. -/
def splitOnce (sep s : String) : String × String :=
  match splitFirstAux sep.toList s.toList with
  | some (pre, post) => (String.mk pre, String.mk post)
  | none => (s, "")

/-! ## Data types of the assembler -/

/-- JSON values, as produced by `json.loads`. -/
inductive Json where
  | null
  | bool (b : Bool)
  | num (n : Int)
  | str (s : String)
  | arr (elems : List Json)
  | obj (fields : List (String × Json))

mutual

/-- Decidable equality on JSON values (the nested inductive defeats
automatic derivation, so the decision procedure is spelled out). -/
def jsonDecEq : (a b : Json) → Decidable (a = b)
  | .null, .null => isTrue rfl
  | .bool a, .bool b =>
    match decEq a b with
    | isTrue h => isTrue (by rw [h])
    | isFalse h => isFalse (fun hh => h (Json.bool.inj hh))
  | .num a, .num b =>
    match decEq a b with
    | isTrue h => isTrue (by rw [h])
    | isFalse h => isFalse (fun hh => h (Json.num.inj hh))
  | .str a, .str b =>
    match decEq a b with
    | isTrue h => isTrue (by rw [h])
    | isFalse h => isFalse (fun hh => h (Json.str.inj hh))
  | .arr as, .arr bs =>
    match jsonListDecEq as bs with
    | isTrue h => isTrue (by rw [h])
    | isFalse h => isFalse (fun hh => h (Json.arr.inj hh))
  | .obj as, .obj bs =>
    match jsonFieldsDecEq as bs with
    | isTrue h => isTrue (by rw [h])
    | isFalse h => isFalse (fun hh => h (Json.obj.inj hh))
  | .null, .bool _ => isFalse (by intro h; cases h)
  | .null, .num _ => isFalse (by intro h; cases h)
  | .null, .str _ => isFalse (by intro h; cases h)
  | .null, .arr _ => isFalse (by intro h; cases h)
  | .null, .obj _ => isFalse (by intro h; cases h)
  | .bool _, .null => isFalse (by intro h; cases h)
  | .bool _, .num _ => isFalse (by intro h; cases h)
  | .bool _, .str _ => isFalse (by intro h; cases h)
  | .bool _, .arr _ => isFalse (by intro h; cases h)
  | .bool _, .obj _ => isFalse (by intro h; cases h)
  | .num _, .null => isFalse (by intro h; cases h)
  | .num _, .bool _ => isFalse (by intro h; cases h)
  | .num _, .str _ => isFalse (by intro h; cases h)
  | .num _, .arr _ => isFalse (by intro h; cases h)
  | .num _, .obj _ => isFalse (by intro h; cases h)
  | .str _, .null => isFalse (by intro h; cases h)
  | .str _, .bool _ => isFalse (by intro h; cases h)
  | .str _, .num _ => isFalse (by intro h; cases h)
  | .str _, .arr _ => isFalse (by intro h; cases h)
  | .str _, .obj _ => isFalse (by intro h; cases h)
  | .arr _, .null => isFalse (by intro h; cases h)
  | .arr _, .bool _ => isFalse (by intro h; cases h)
  | .arr _, .num _ => isFalse (by intro h; cases h)
  | .arr _, .str _ => isFalse (by intro h; cases h)
  | .arr _, .obj _ => isFalse (by intro h; cases h)
  | .obj _, .null => isFalse (by intro h; cases h)
  | .obj _, .bool _ => isFalse (by intro h; cases h)
  | .obj _, .num _ => isFalse (by intro h; cases h)
  | .obj _, .str _ => isFalse (by intro h; cases h)
  | .obj _, .arr _ => isFalse (by intro h; cases h)

/-- Decidable equality on JSON arrays. -/
def jsonListDecEq : (as bs : List Json) → Decidable (as = bs)
  | [], [] => isTrue rfl
  | [], _ :: _ => isFalse (by intro h; cases h)
  | _ :: _, [] => isFalse (by intro h; cases h)
  | a :: as, b :: bs =>
    match jsonDecEq a b, jsonListDecEq as bs with
    | isTrue h1, isTrue h2 => isTrue (by rw [h1, h2])
    | isFalse h1, _ => isFalse (fun hh => h1 (List.head_eq_of_cons_eq hh))
    | _, isFalse h2 => isFalse (fun hh => h2 (List.tail_eq_of_cons_eq hh))

/-- Decidable equality on JSON object field lists. -/
def jsonFieldsDecEq : (as bs : List (String × Json)) → Decidable (as = bs)
  | [], [] => isTrue rfl
  | [], _ :: _ => isFalse (by intro h; cases h)
  | _ :: _, [] => isFalse (by intro h; cases h)
  | (k1, v1) :: as, (k2, v2) :: bs =>
    match decEq k1 k2, jsonDecEq v1 v2, jsonFieldsDecEq as bs with
    | isTrue h0, isTrue h1, isTrue h2 => isTrue (by rw [h0, h1, h2])
    | isFalse h0, _, _ =>
      isFalse (fun hh => h0 (congrArg Prod.fst (List.head_eq_of_cons_eq hh)))
    | _, isFalse h1, _ =>
      isFalse (fun hh => h1 (congrArg Prod.snd (List.head_eq_of_cons_eq hh)))
    | _, _, isFalse h2 => isFalse (fun hh => h2 (List.tail_eq_of_cons_eq hh))

end

instance : DecidableEq Json := jsonDecEq

/-- A part of an outbound agent message: either a plain `TextPart` or a
`DataPart` produced by `create_a2ui_part` from one parsed JSON message. -/
inductive APart where
  | text (s : String)
  | data (j : Json)
deriving DecidableEq

/-- The a2a task states used by the executor. -/
inductive TaskState where
  | submitted
  | working
  | inputRequired
  | completed
  | canceled
  | failed
  | rejected
deriving DecidableEq

/-- One item of the backend agent's update stream
(`agent.stream(query, context_id)` yields dicts with these keys). -/
structure StreamItem where
  is_task_complete : Bool
  updates : String
  content : String
deriving DecidableEq

/-- One observable effect on the event sink: a `TaskUpdater.update_status`
call with a state, the parts of the attached message, and the `final` flag. -/
inductive Emission where
  | status (state : TaskState) (parts : List APart) (isFinal : Bool)
deriving DecidableEq

/-! ## Terminal-content demultiplexing (`execute`, lines 129-164) -/

/-- The separator between conversational prose and the structured payload. -/
def SEPARATOR : String := "---a2ui_JSON---"

/-- The backquote character (code fences), kept out of source text. -/
def backquote : Char := Char.ofNat 96

/-- The character set of Python `lstrip("\x60\x60\x60json")`. -/
def fenceChars : List Char := [backquote, backquote, backquote, 'j', 's', 'o', 'n']

/-- `json_string.strip().lstrip("\x60\x60\x60json").rstrip("\x60\x60\x60").strip()`. -/
def cleanJsonString (s : String) : String :=
  pyStrip (pyRstrip [backquote, backquote, backquote] (pyLstrip fenceChars (pyStrip s)))

/-- The prose parts of the final message: the trimmed text before the
separator, when non-empty (`if text_content.strip(): ...`). -/
def prosePartsOf (content : String) : List APart :=
  let text_content := (splitOnce SEPARATOR content).1
  if pyStrip text_content ≠ "" then [APart.text (pyStrip text_content)] else []

/-- The payload parts of the final message, built from the segment after
the separator: skipped when whitespace-only, otherwise fence-stripped and
parsed; a JSON list becomes one `DataPart` per element, a single JSON value
becomes one `DataPart`, and a parse failure falls back to a `TextPart`
holding the raw (unstripped) payload segment. -/
def payloadPartsOf (loads : String → Option Json) (json_string : String) : List APart :=
  if pyStrip json_string ≠ "" then
    match loads (cleanJsonString json_string) with
    | some (Json.arr elems) => elems.map APart.data
    | some j => [APart.data j]
    | none => [APart.text json_string]
  else []

/-- The parts of the final status message for a terminal content
(`execute`, lines 129-164): content without the separator becomes a single
trimmed text part; content with the separator contributes the prose parts
followed by the payload parts. -/
def buildFinalParts (loads : String → Option Json) (content : String) : List APart :=
  if pyContains SEPARATOR content then
    prosePartsOf content ++ payloadPartsOf loads (splitOnce SEPARATOR content).2
  else
    [APart.text (pyStrip content)]

/-! ## Final state and stream processing (`execute`, lines 112-180) -/

/-- Does the lowered action name contain "submit" or "confirm"? -/
def submitOrConfirm (a : String) : Bool :=
  pyContains "submit" (pyLower a) || pyContains "confirm" (pyLower a)

/-- `final_state` (lines 123-127): `completed` exactly when the action is a
truthy (non-empty) string containing "submit" or "confirm" case-insensitively,
`input_required` otherwise (in particular when no action was supplied). -/
def finalState : Option String → TaskState
  | some a =>
    if a ≠ "" ∧ submitOrConfirm a = true then TaskState.completed
    else TaskState.inputRequired
  | none => TaskState.inputRequired

/-- The working status update emitted for one non-terminal item:
`update_status(TaskState.working, new_agent_text_message(item["updates"], ...))`. -/
def workingEmission (item : StreamItem) : Emission :=
  Emission.status TaskState.working [APart.text item.updates] false

/-- The stream-consumption loop of `execute` (lines 112-180): each
non-terminal item is forwarded as one working update; the first terminal
item produces the single final status update (with `final` set exactly when
the state is `completed`) and the loop breaks. -/
def processItems (loads : String → Option Json) (st : TaskState) :
    List StreamItem → List Emission
  | [] => []
  | item :: rest =>
    if item.is_task_complete then
      [Emission.status st (buildFinalParts loads item.content)
        (st == TaskState.completed)]
    else
      workingEmission item :: processItems loads st rest

/-! ## Inbound-turn model: message parts and query selection
(`execute`, lines 54-101) -/

/-- A Python value as found inside a `DataPart`'s `data` dict: the source
only inspects strings and dicts, and renders values with `str()`. -/
inductive PyVal where
  | str (s : String)
  | dict (entries : List (String × PyVal))

mutual

/-- Decidable equality on `PyVal`. -/
def pyValDecEq : (a b : PyVal) → Decidable (a = b)
  | .str a, .str b =>
    match decEq a b with
    | isTrue h => isTrue (by rw [h])
    | isFalse h => isFalse (fun hh => h (PyVal.str.inj hh))
  | .dict as, .dict bs =>
    match pyValEntriesDecEq as bs with
    | isTrue h => isTrue (by rw [h])
    | isFalse h => isFalse (fun hh => h (PyVal.dict.inj hh))
  | .str _, .dict _ => isFalse (by intro h; cases h)
  | .dict _, .str _ => isFalse (by intro h; cases h)

/-- Decidable equality on `PyVal` dict entry lists. -/
def pyValEntriesDecEq : (as bs : List (String × PyVal)) → Decidable (as = bs)
  | [], [] => isTrue rfl
  | [], _ :: _ => isFalse (by intro h; cases h)
  | _ :: _, [] => isFalse (by intro h; cases h)
  | (k1, v1) :: as, (k2, v2) :: bs =>
    match decEq k1 k2, pyValDecEq v1 v2, pyValEntriesDecEq as bs with
    | isTrue h0, isTrue h1, isTrue h2 => isTrue (by rw [h0, h1, h2])
    | isFalse h0, _, _ =>
      isFalse (fun hh => h0 (congrArg Prod.fst (List.head_eq_of_cons_eq hh)))
    | _, isFalse h1, _ =>
      isFalse (fun hh => h1 (congrArg Prod.snd (List.head_eq_of_cons_eq hh)))
    | _, _, isFalse h2 => isFalse (fun hh => h2 (List.tail_eq_of_cons_eq hh))

end

instance : DecidableEq PyVal := pyValDecEq

/-- Lookup in a Python dict modelled as an association list
(Python dict keys are unique, so first match is the value). -/
def pvLookup (k : String) : List (String × PyVal) → Option PyVal
  | [] => none
  | e :: rest => if e.1 = k then some e.2 else pvLookup k rest

/-- Python truthiness of the values the executor tests
(`if ui_event_part:`): a string is truthy when non-empty,
a dict when it has entries. -/
def pyTruthy : PyVal → Bool
  | PyVal.str s => s ≠ ""
  | PyVal.dict es => es ≠ []

/-- Python `d.get(key)` on a `PyVal` (a non-dict receiver would raise
`AttributeError` in Python; the executor never reaches that case for the
inputs the spec describes). -/
def dictGet (v : PyVal) (k : String) : Option PyVal :=
  match v with
  | PyVal.dict es => pvLookup k es
  | PyVal.str _ => none

/-- One part of the inbound a2a message. -/
inductive MsgPart where
  | dataPart (data : List (String × PyVal))
  | textPart (text : String)
  | otherPart
deriving DecidableEq

/-- The inbound turn: the message parts, and the freeform text that
`context.get_user_input()` would return. -/
structure ExecInput where
  parts : List MsgPart
  userInput : String

/-- The body of the part-scanning loop (lines 79-89), with `ui_event_part`
as the accumulator: every `DataPart` whose data dict has a "userAction"
key overwrites it, so the last such part wins. -/
def scanLoop (ui_event_part : Option PyVal) : List MsgPart → Option PyVal
  | [] => ui_event_part
  | p :: rest =>
    match p with
    | MsgPart.dataPart d =>
      match pvLookup "userAction" d with
      | some v => scanLoop (some v) rest
      | none => scanLoop ui_event_part rest
    | _ => scanLoop ui_event_part rest

/-- The `ui_event_part` variable after the scanning loop (initially None). -/
def scanUiEvent (parts : List MsgPart) : Option PyVal :=
  scanLoop none parts

/-- The event actually used by the branch `if ui_event_part:` (line 91):
the scanned event, provided it is truthy. -/
def effEvent (inp : ExecInput) : Option PyVal :=
  match scanUiEvent inp.parts with
  | some v => if pyTruthy v then some v else none
  | none => none

mutual

/-- Renders dict entries the way Python's `repr` joins them. -/
def fmtEntries : List (String × PyVal) → String
  | [] => ""
  | [(k, v)] => "\x27" ++ k ++ "\x27: " ++ fmtInner v
  | (k, v) :: e :: rest =>
    "\x27" ++ k ++ "\x27: " ++ fmtInner v ++ ", " ++ fmtEntries (e :: rest)

/-- Python `repr()` of a `PyVal` nested inside a dict rendering. -/
def fmtInner : PyVal → String
  | PyVal.str s => "\x27" ++ s ++ "\x27"
  | PyVal.dict es => "\x7b" ++ fmtEntries es ++ "\x7d"

end

/-- Python `str()` of a `PyVal`: a string renders as itself; a dict renders
as Python would print it, with single-quoted keys and string values. -/
def fmtVal : PyVal → String
  | PyVal.str s => s
  | PyVal.dict es => "\x7b" ++ fmtEntries es ++ "\x7d"

/-- Python `", ".join(f"\x7bk\x7d: \x7bv\x7d" for k, v in ctx.items())`. -/
def contextStr (es : List (String × PyVal)) : String :=
  String.intercalate ", " (es.map (fun e => e.1 ++ ": " ++ fmtVal e.2))

/-- The query built for a truthy client event (lines 93-98): the action
name and the rendered context interpolated into the fixed template
(Python renders an absent action name as "None"). -/
def actionQueryOf (ev : PyVal) : String :=
  let actionStr :=
    match dictGet ev "actionName" with
    | some v => fmtVal v
    | none => "None"
  let ctx :=
    match dictGet ev "context" with
    | some (PyVal.dict es) => es
    | some (PyVal.str _) => []
    | none => []
  "User triggered action \x27" ++ actionStr ++ "\x27 with context: " ++
    contextStr ctx ++ ". Please respond appropriately with a UI update or confirmation."

/-- The final query handed to the LLM (lines 91-101): the action-formatted
query when a truthy client event was found, else the freeform user input. -/
def theQuery (inp : ExecInput) : String :=
  match effEvent inp with
  | some ev => actionQueryOf ev
  | none => inp.userInput

/-- The `action` variable as consumed by the final-state computation:
the "actionName" string of the truthy client event, when there is one. -/
def theActionName (inp : ExecInput) : Option String :=
  match effEvent inp with
  | some ev =>
    match dictGet ev "actionName" with
    | some (PyVal.str s) => some s
    | _ => none
  | none => none

/-- The whole `execute` turn as observed on the event sink: the stream is
consumed with the final state derived from the inbound turn's action. -/
def executeModel (loads : String → Option Json) (inp : ExecInput)
    (stream : List StreamItem) : List Emission :=
  processItems loads (finalState (theActionName inp)) stream

/-! ## Spec-side reading of the input-source choice (for claim C8) -/

/-- Claim-side definition, following the spec words for the inbound turn:
the "userAction" payload of a data part, if any. -/
def specUserActionOf : MsgPart → Option PyVal
  | MsgPart.dataPart d => pvLookup "userAction" d
  | _ => none

/-- Claim-side definition: the last "userAction" payload among the
message parts. -/
def lastUserAction (parts : List MsgPart) : Option PyVal :=
  (parts.filterMap specUserActionOf).getLast?

/-- Claim-side definition, following the spec words: does any message part
carry a typed client interaction event, i.e. a "userAction" payload with an
action name? -/
def hasTypedEvent (parts : List MsgPart) : Bool :=
  parts.any (fun p =>
    match specUserActionOf p with
    | some ev => (dictGet ev "actionName").isSome
    | none => false)

/-! ## Cancellation (`cancel`, lines 182-185) -/

/-- The a2a protocol errors that a `ServerError` can carry; the executor
only ever raises `UnsupportedOperationError`, and `internalError` stands
for the ordinary-failure alternatives of the a2a error taxonomy. -/
inductive A2AError where
  | unsupportedOperation
  | internalError
deriving DecidableEq

/-- An a2a task (only the fields the executor reads); named to avoid the
builtin `Task` type. -/
structure A2ATask where
  id : String
  contextId : String
deriving DecidableEq

/-- The request context handed to `cancel` (never inspected by it). -/
structure CancelRequest where
  taskId : String
deriving DecidableEq

/-- `cancel` (lines 182-185): unconditionally raises
`ServerError(error=UnsupportedOperationError())`; modelled as an `Except`
that is always the `unsupportedOperation` server error. -/
def cancel (request : CancelRequest) : Except A2AError (Option A2ATask) :=
  Except.error A2AError.unsupportedOperation

/-! ## Data model and `applyUpdate` (A2UI schema, `prompt_builder.py`) -/

/-- Modelled from the spec: the repository only declares the data model in
the A2UI JSON schema (`A2UI_SCHEMA`, `dataModelUpdate`); the client-side
interpreter is external. A data-model value holds strings, numbers,
booleans, or a nested map transmitted as an ordered adjacency list of
key/value entries (exactly one typed `value*` field per entry). -/
inductive DMValue where
  | str (s : String)
  | num (n : Int)
  | bool (b : Bool)
  | map (entries : List (String × DMValue))

/-- A data model: the ordered key/value entries of the root map. -/
abbrev DataModel := List (String × DMValue)

/-- First-match lookup in an ordered entry list. -/
def dmLookup (k : String) : DataModel → Option DMValue
  | [] => none
  | e :: rest => if e.1 = k then some e.2 else dmLookup k rest

/-- Does the entry list bind the key? -/
def dmHasKey (k : String) (m : DataModel) : Bool :=
  m.any (fun e => e.1 = k)

/-- The child entries of a value: the entries of a map, nothing otherwise. -/
def childOf : DMValue → DataModel
  | DMValue.map es => es
  | _ => []

/-- Modelled from the spec: structural replacement of the subtree at a
non-empty key path. The entry at the head key is rewritten in place
(preserving all sibling entries and their order); a missing key is
appended; descending through a non-map value rebuilds it as a map. -/
def setPath : DataModel → List String → DMValue → DataModel
  | m, [], _ => m
  | m, [k], v =>
    if dmHasKey k m then
      m.map (fun e => if e.1 = k then (k, v) else e)
    else
      m ++ [(k, v)]
  | m, k :: k2 :: ks, v =>
    if dmHasKey k m then
      m.map (fun e =>
        if e.1 = k then (k, DMValue.map (setPath (childOf e.2) (k2 :: ks) v)) else e)
    else
      m ++ [(k, DMValue.map (setPath [] (k2 :: ks) v))]

/-- Split a character list at every slash. -/
def splitSlash : List Char → List (List Char)
  | [] => [[]]
  | c :: cs =>
    if c = '/' then [] :: splitSlash cs
    else
      match splitSlash cs with
      | [] => [[c]]
      | seg :: rest => (c :: seg) :: rest

/-- A slash-delimited path as its non-empty key segments: "" and "/" both
denote the root (no segments), "/user/name" denotes ["user", "name"]. -/
def parsePath (p : String) : List String :=
  ((splitSlash p.toList).filter (fun seg => seg ≠ [])).map String.mk

/-- Modelled from the spec: `applyUpdate(currentModel, message)` for a
`dataModelUpdate` carrying `path` and `contents` — an empty or root path
replaces the entire model with the new contents, a non-root path replaces
only the subtree at that path. -/
def applyUpdate (m : DataModel) (path : String) (contents : DataModel) : DataModel :=
  match parsePath path with
  | [] => contents
  | k :: ks => setPath m (k :: ks) (DMValue.map contents)

/-- Read the value at a non-empty key path (addresses below a non-map
value do not resolve). -/
def getPath : DataModel → List String → Option DMValue
  | _, [] => none
  | m, [k] => dmLookup k m
  | m, k :: k2 :: ks =>
    match dmLookup k m with
    | some (DMValue.map m2) => getPath m2 (k2 :: ks)
    | _ => none

/-! ## Concrete collaborator instances used by witnesses -/

/-- A `json.loads` instance that rejects every input
(all inputs raise `JSONDecodeError`). -/
def loadsNone : String → Option Json := fun _ => none

/-- A `json.loads` instance for concrete witness inputs: parses the two
fixed payloads the witnesses feed it and rejects everything else. -/
def loadsDemo : String → Option Json := fun s =>
  if s = "[1, 2]" then some (Json.arr [Json.num 1, Json.num 2])
  else if s = "7" then some (Json.num 7)
  else none

/-! ## Helper lemmas -/

/-- Non-terminal items are forwarded one working update each, in order,
before the rest of the stream is processed. -/
theorem processItems_prepend (loads : String → Option Json) (st : TaskState)
    (tail : List StreamItem) :
    ∀ pre : List StreamItem, (∀ i ∈ pre, i.is_task_complete = false) →
      processItems loads st (pre ++ tail) =
        pre.map workingEmission ++ processItems loads st tail
  | [], _ => by simp
  | p :: ps, h => by
    have hp := h p (List.mem_cons_self p ps)
    have ih := processItems_prepend loads st tail ps
      (fun i hi => h i (List.mem_cons_of_mem p hi))
    simp [processItems, hp, ih]

/-! ## Claim theorems: terminal-content demultiplexing -/

/-- C3: for every terminal content not containing the separator, the final
update carries exactly one text unit holding the whole content trimmed of
leading and trailing whitespace, and no structured-payload units. -/
theorem no_separator_single_trimmed_text (loads : String → Option Json)
    (content : String) (h : pyContains SEPARATOR content = false) :
    buildFinalParts loads content = [APart.text (pyStrip content)] := by
  simp [buildFinalParts, h]

/-- Witness for C3 at a concrete separator-free content. -/
theorem no_separator_single_trimmed_text_witness :
    buildFinalParts loadsNone "  hello world " = [APart.text "hello world"] := by
  rw [no_separator_single_trimmed_text loadsNone "  hello world " (by decide)]
  decide

/-- C1 (counterexample): on a terminal content whose payload segment is a
fenced non-JSON string, the fallback text unit holds the raw payload
segment with the fences still present, not the fence-stripped segment the
claim names. -/
theorem jsonFallback_counterexample :
    cleanJsonString "```json nope```" = "nope" ∧
    buildFinalParts loadsNone "---a2ui_JSON---```json nope```" =
      [APart.text "```json nope```"] ∧
    buildFinalParts loadsNone "---a2ui_JSON---```json nope```" ≠
      [APart.text "nope"] := by
  refine ⟨by decide, by decide, by decide⟩

/-- C1 (amended): for every terminal content containing the separator whose
payload segment is non-empty after trimming and whose trimmed,
fence-stripped form fails to parse as JSON, the assembler does not raise
(the parse failure is absorbed) and appends exactly one plain-text unit
holding the payload segment exactly as split off — untrimmed and with any
code fences still present. -/
theorem jsonFallback_raw_segment (loads : String → Option Json)
    (content : String)
    (hsep : pyContains SEPARATOR content = true)
    (hne : pyStrip (splitOnce SEPARATOR content).2 ≠ "")
    (hfail : loads (cleanJsonString (splitOnce SEPARATOR content).2) = none) :
    buildFinalParts loads content =
      prosePartsOf content ++ [APart.text (splitOnce SEPARATOR content).2] := by
  simp [buildFinalParts, hsep, payloadPartsOf, hne, hfail]

/-- Witness for the amended C1 at a concrete fenced non-JSON payload. -/
theorem jsonFallback_raw_segment_witness :
    buildFinalParts loadsNone "---a2ui_JSON---```json nope```" =
      [APart.text "```json nope```"] := by
  rw [jsonFallback_raw_segment loadsNone "---a2ui_JSON---```json nope```"
    (by decide) (by decide) rfl]
  decide

/-- C5: for every terminal payload segment that parses as JSON, a parsed
list yields one structured-payload unit per element in the list's order,
and a single non-list JSON value yields exactly one structured-payload
unit. -/
theorem payload_units_preserve_parse_order (loads : String → Option Json)
    (content : String) (j : Json)
    (hsep : pyContains SEPARATOR content = true)
    (hne : pyStrip (splitOnce SEPARATOR content).2 ≠ "")
    (hparse : loads (cleanJsonString (splitOnce SEPARATOR content).2) = some j) :
    buildFinalParts loads content =
      prosePartsOf content ++
        (match j with
         | Json.arr elems => elems.map APart.data
         | _ => [APart.data j]) := by
  cases j <;> simp [buildFinalParts, hsep, payloadPartsOf, hne, hparse]

/-- Witness for C5 at a concrete two-element list payload. -/
theorem payload_units_preserve_parse_order_witness :
    buildFinalParts loadsDemo "Built.---a2ui_JSON---[1, 2]" =
      [APart.text "Built.", APart.data (Json.num 1), APart.data (Json.num 2)] := by
  rw [payload_units_preserve_parse_order loadsDemo "Built.---a2ui_JSON---[1, 2]"
    (Json.arr [Json.num 1, Json.num 2]) (by decide) (by decide) (by decide)]
  decide

/-- C10: for every terminal content containing the separator whose prose
and payload segments are both whitespace-only, the final status update is
still emitted but carries zero units — and the result does not depend on
the JSON parser at all (no parse or fallback happens). -/
theorem empty_segments_zero_units (loads : String → Option Json)
    (st : TaskState) (item : StreamItem)
    (hterm : item.is_task_complete = true)
    (hsep : pyContains SEPARATOR item.content = true)
    (hprose : pyStrip (splitOnce SEPARATOR item.content).1 = "")
    (hpayload : pyStrip (splitOnce SEPARATOR item.content).2 = "") :
    processItems loads st [item] =
      [Emission.status st [] (st == TaskState.completed)] := by
  simp [processItems, hterm, buildFinalParts, hsep, prosePartsOf, payloadPartsOf,
    hprose, hpayload]

/-- Witness for C10 at a concrete whitespace-only terminal content. -/
theorem empty_segments_zero_units_witness :
    processItems loadsNone TaskState.inputRequired
      [⟨true, "", "  ---a2ui_JSON---  "⟩] =
      [Emission.status TaskState.inputRequired [] false] := by
  rw [empty_segments_zero_units loadsNone TaskState.inputRequired
    ⟨true, "", "  ---a2ui_JSON---  "⟩ rfl (by decide) (by decide) (by decide)]
  decide

/-- C4: on the terminal item of a wellformed stream, exactly one final
status update is emitted; it carries the prose text unit first (only when
the prose segment is non-empty after trimming — `prosePartsOf`) followed by
the payload units in their parsed order (`payloadPartsOf`), and it is
marked final exactly when the turn status is `completed`. -/
theorem final_update_order_and_finality (loads : String → Option Json)
    (st : TaskState) (pre : List StreamItem) (item : StreamItem)
    (hpre : ∀ i ∈ pre, i.is_task_complete = false)
    (hterm : item.is_task_complete = true)
    (hsep : pyContains SEPARATOR item.content = true) :
    processItems loads st (pre ++ [item]) =
      pre.map workingEmission ++
        [Emission.status st
          (prosePartsOf item.content ++
            payloadPartsOf loads (splitOnce SEPARATOR item.content).2)
          (st == TaskState.completed)] := by
  rw [processItems_prepend loads st [item] pre hpre]
  simp [processItems, hterm, buildFinalParts, hsep]

/-- Witness for C4 at a concrete one-update stream ending in a terminal
content with a prose segment and a single-object payload. -/
theorem final_update_order_and_finality_witness :
    processItems loadsDemo TaskState.completed
      [⟨false, "working on it", ""⟩, ⟨true, "", "Done.---a2ui_JSON---7"⟩] =
      [Emission.status TaskState.working [APart.text "working on it"] false,
       Emission.status TaskState.completed
         [APart.text "Done.", APart.data (Json.num 7)] true] := by
  have h := final_update_order_and_finality loadsDemo TaskState.completed
    [⟨false, "working on it", ""⟩] ⟨true, "", "Done.---a2ui_JSON---7"⟩
    (by decide) rfl (by decide)
  simp only [List.singleton_append] at h
  rw [h]
  decide

/-- C7: every non-terminal item of a wellformed stream is forwarded as
exactly one working status update carrying that item's update text
verbatim, one emission per item, in arrival order, with no reordering. -/
theorem working_updates_in_arrival_order (loads : String → Option Json)
    (st : TaskState) (pre : List StreamItem) (item : StreamItem)
    (hpre : ∀ i ∈ pre, i.is_task_complete = false)
    (hterm : item.is_task_complete = true) :
    (processItems loads st (pre ++ [item])).take pre.length =
      pre.map (fun i => Emission.status TaskState.working [APart.text i.updates] false) := by
  rw [processItems_prepend loads st [item] pre hpre]
  have hlen : pre.length = (pre.map workingEmission).length := (List.length_map pre workingEmission).symm
  rw [hlen, List.take_left]
  rfl

/-- Witness for C7 at a concrete two-update stream. -/
theorem working_updates_in_arrival_order_witness :
    (processItems loadsNone TaskState.inputRequired
      [⟨false, "step 1", ""⟩, ⟨false, "step 2", ""⟩, ⟨true, "", "done"⟩]).take 2 =
      [Emission.status TaskState.working [APart.text "step 1"] false,
       Emission.status TaskState.working [APart.text "step 2"] false] := by
  have h := working_updates_in_arrival_order loadsNone TaskState.inputRequired
    [⟨false, "step 1", ""⟩, ⟨false, "step 2", ""⟩] ⟨true, "", "done"⟩
    (by decide) rfl
  exact h

/-! ## Claim theorems: final state and input-source selection -/

/-- C2: the final turn status is `completed` exactly when the typed client
event supplied a (string) action name containing "submit" or "confirm" as
a case-insensitive substring; in every other case — including a turn with
no action at all — it is `input_required`. -/
theorem final_status_iff_submit_or_confirm (inp : ExecInput) :
    finalState (theActionName inp) = TaskState.completed ↔
      ∃ s : String, theActionName inp = some s ∧
        (pyContains "submit" (pyLower s) = true ∨
         pyContains "confirm" (pyLower s) = true) := by
  cases h : theActionName inp with
  | none => simp [finalState]
  | some a =>
    by_cases hcond : a ≠ "" ∧ submitOrConfirm a = true
    · simp only [finalState, if_pos hcond]
      have := hcond.2
      rw [submitOrConfirm, Bool.or_eq_true] at this
      simp [this]
    · simp only [finalState, if_neg hcond]
      constructor
      · intro hh; cases hh
      · rintro ⟨s, hs, hor⟩
        obtain rfl : a = s := Option.some.inj hs
        exfalso
        apply hcond
        constructor
        · intro ha
          subst ha
          rcases hor with h1 | h1 <;> cases h1
        · rw [submitOrConfirm, Bool.or_eq_true]
          exact hor

/-- The scanning loop keeps the last "userAction" payload found, falling
back to its accumulator when there is none. -/
theorem scanLoop_eq_lastUserAction (parts : List MsgPart) :
    ∀ acc : Option PyVal,
      scanLoop acc parts =
        (match (parts.filterMap specUserActionOf).getLast? with
         | some v => some v
         | none => acc) := by
  induction parts with
  | nil => intro acc; rfl
  | cons p rest ih =>
    intro acc
    cases hp : specUserActionOf p with
    | none =>
      have hlift :
          (p :: rest).filterMap specUserActionOf = rest.filterMap specUserActionOf := by
        simp [List.filterMap_cons, hp]
      rw [hlift]
      cases p with
      | dataPart d =>
        have hd : pvLookup "userAction" d = none := hp
        simp only [scanLoop, hd]
        exact ih acc
      | textPart t => exact ih acc
      | otherPart => exact ih acc
    | some v =>
      have hlift :
          (p :: rest).filterMap specUserActionOf =
            v :: rest.filterMap specUserActionOf := by
        simp [List.filterMap_cons, hp]
      rw [hlift]
      have hstep : scanLoop acc (p :: rest) = scanLoop (some v) rest := by
        cases p with
        | dataPart d =>
          have hd : pvLookup "userAction" d = some v := hp
          simp only [scanLoop, hd]
        | textPart t => cases hp
        | otherPart => cases hp
      rw [hstep, ih (some v)]
      cases hl : (rest.filterMap specUserActionOf) with
      | nil => rfl
      | cons w ws =>
        have hu := List.getLast?_eq_getLast_of_ne_nil (l := w :: ws) (by simp)
        rw [List.getLast?_cons_cons, hu]

/-- The concrete inbound turn refuting C8: the first part carries a typed
client event (a "userAction" with an action name and context), but a later
part carries an empty "userAction" payload that overwrites it. -/
def overriddenEventInput : ExecInput :=
  { parts :=
      [MsgPart.dataPart
        [("userAction",
          PyVal.dict
            [("actionName", PyVal.str "submit_form"),
             ("context", PyVal.dict [])])],
       MsgPart.dataPart [("userAction", PyVal.dict [])]],
    userInput := "hello" }

/-- C8 (counterexample): a typed client interaction event is present among
the message parts, yet the backend query is the freeform text instruction,
not the action-formatted query — because the scanning loop keeps only the
last "userAction" payload and an empty one is falsy. -/
theorem input_source_counterexample :
    hasTypedEvent overriddenEventInput.parts = true ∧
    theQuery overriddenEventInput = overriddenEventInput.userInput ∧
    theQuery overriddenEventInput ≠
      actionQueryOf
        (PyVal.dict
          [("actionName", PyVal.str "submit_form"),
           ("context", PyVal.dict [])]) := by
  refine ⟨by decide, by decide, by decide⟩

/-- C8 (amended): exactly one input source forms the backend query, chosen
from the last "userAction" payload among the message parts: when that last
payload exists and is truthy (non-empty) the typed-event query is used,
and the freeform text instruction is used otherwise — in particular a
later empty "userAction" payload overrides an earlier typed event and
forces the freeform fallback. -/
theorem input_source_last_userAction (inp : ExecInput) :
    theQuery inp =
      (match lastUserAction inp.parts with
       | some ev => if pyTruthy ev then actionQueryOf ev else inp.userInput
       | none => inp.userInput) := by
  have hscan : scanUiEvent inp.parts = lastUserAction inp.parts := by
    rw [scanUiEvent, scanLoop_eq_lastUserAction inp.parts none, lastUserAction]
    cases (inp.parts.filterMap specUserActionOf).getLast? <;> rfl
  rw [theQuery, effEvent, hscan]
  cases lastUserAction inp.parts with
  | none => rfl
  | some ev =>
    by_cases h : pyTruthy ev = true
    · simp [h]
    · simp [h]

/-- C9: cancellation always fails with the unsupported-operation server
error — it never succeeds, never returns a task — and that error is
distinguishable from the ordinary-failure errors of the a2a taxonomy. -/
theorem cancel_always_unsupported :
    (∀ request : CancelRequest,
      cancel request = Except.error A2AError.unsupportedOperation) ∧
    A2AError.unsupportedOperation ≠ A2AError.internalError := by
  exact ⟨fun _ => rfl, by decide⟩

/-! ## Data-model lemmas (for claim C6) -/

/-- Rewriting the entries bound to `k` leaves lookups of other keys alone. -/
theorem dmLookup_map_update (m : DataModel) (k q : String) (g : DMValue → DMValue)
    (hq : q ≠ k) :
    dmLookup q (m.map (fun e => if e.1 = k then (k, g e.2) else e)) = dmLookup q m := by
  induction m with
  | nil => rfl
  | cons e rest ih =>
    by_cases he : e.1 = k
    · simp [dmLookup, he, Ne.symm hq, ih]
    · by_cases heq : e.1 = q
      · simp [dmLookup, he, heq, hq]
      · simp [dmLookup, he, heq, ih]

/-- Appending an entry for `k` leaves lookups of other keys alone. -/
theorem dmLookup_append_ne (m : DataModel) (k q : String) (v : DMValue)
    (hq : q ≠ k) :
    dmLookup q (m ++ [(k, v)]) = dmLookup q m := by
  induction m with
  | nil => simp [dmLookup, Ne.symm hq]
  | cons e rest ih =>
    by_cases heq : e.1 = q
    · simp [dmLookup, heq]
    · simp [dmLookup, heq, ih]

/-- `setPath` at a path headed by `k` leaves lookups of other keys alone. -/
theorem dmLookup_setPath_ne (m : DataModel) (k : String) (ks : List String)
    (v : DMValue) (q : String) (hq : q ≠ k) :
    dmLookup q (setPath m (k :: ks) v) = dmLookup q m := by
  cases ks with
  | nil =>
    by_cases h : dmHasKey k m = true
    · simp only [setPath, if_pos h]
      exact dmLookup_map_update m k q (fun _ => v) hq
    · simp only [setPath, if_neg h]
      exact dmLookup_append_ne m k q v hq
  | cons k2 ks2 =>
    by_cases h : dmHasKey k m = true
    · simp only [setPath, if_pos h]
      exact dmLookup_map_update m k q
        (fun w => DMValue.map (setPath (childOf w) (k2 :: ks2) v)) hq
    · simp only [setPath, if_neg h]
      exact dmLookup_append_ne m k q (DMValue.map (setPath [] (k2 :: ks2) v)) hq

/-- Rewriting the entries bound to `k` maps the looked-up value. -/
theorem dmLookup_map_self (m : DataModel) (k : String) (g : DMValue → DMValue) :
    dmLookup k (m.map (fun e => if e.1 = k then (k, g e.2) else e)) =
      (dmLookup k m).map g := by
  induction m with
  | nil => rfl
  | cons e rest ih =>
    by_cases he : e.1 = k
    · simp [dmLookup, he]
    · simp [dmLookup, he, ih]

/-- A key that is not bound looks up to nothing. -/
theorem dmLookup_none_of_no_key (m : DataModel) (k : String)
    (h : dmHasKey k m = false) : dmLookup k m = none := by
  induction m with
  | nil => rfl
  | cons e rest ih =>
    have he : ¬ e.1 = k := by
      intro hh
      simp [dmHasKey, hh] at h
    have hr : dmHasKey k rest = false := by
      simpa [dmHasKey, he] using h
    simp [dmLookup, he, ih hr]

/-- A bound key looks up to some value. -/
theorem dmLookup_some_of_hasKey (m : DataModel) (k : String)
    (h : dmHasKey k m = true) : ∃ w, dmLookup k m = some w := by
  induction m with
  | nil => cases h
  | cons e rest ih =>
    by_cases he : e.1 = k
    · exact ⟨e.2, by simp [dmLookup, he]⟩
    · have hr : dmHasKey k rest = true := by
        simpa [dmHasKey, he] using h
      obtain ⟨w, hw⟩ := ih hr
      exact ⟨w, by simp [dmLookup, he, hw]⟩

/-- Appending a fresh binding for `k` makes it the looked-up value. -/
theorem dmLookup_append_of_no_key (m : DataModel) (k : String) (v : DMValue)
    (h : dmHasKey k m = false) : dmLookup k (m ++ [(k, v)]) = some v := by
  induction m with
  | nil => simp [dmLookup]
  | cons e rest ih =>
    have he : ¬ e.1 = k := by
      intro hh
      simp [dmHasKey, hh] at h
    have hr : dmHasKey k rest = false := by
      simpa [dmHasKey, he] using h
    simp [dmLookup, he, ih hr]

/-- The value `setPath` installs at the head key of its path, as a function
of the previously bound value. -/
def extendValOf : Option DMValue → List String → DMValue → DMValue
  | _, [], v => v
  | old, k2 :: ks, v =>
    DMValue.map (setPath
      (match old with
       | some w => childOf w
       | none => []) (k2 :: ks) v)

/-- Looking up the head key of the path after `setPath`. -/
theorem dmLookup_setPath_self (m : DataModel) (k : String) (ks : List String)
    (v : DMValue) :
    dmLookup k (setPath m (k :: ks) v) = some (extendValOf (dmLookup k m) ks v) := by
  cases ks with
  | nil =>
    by_cases h : dmHasKey k m = true
    · rw [show setPath m [k] v =
        (if dmHasKey k m then m.map (fun e => if e.1 = k then (k, v) else e)
         else m ++ [(k, v)]) from rfl, if_pos h,
        dmLookup_map_self m k (fun _ => v)]
      obtain ⟨w, hw⟩ := dmLookup_some_of_hasKey m k h
      rw [hw]
      rfl
    · have hf : dmHasKey k m = false := by simpa using h
      rw [show setPath m [k] v =
        (if dmHasKey k m then m.map (fun e => if e.1 = k then (k, v) else e)
         else m ++ [(k, v)]) from rfl, if_neg h,
        dmLookup_append_of_no_key m k v hf, dmLookup_none_of_no_key m k hf]
      rfl
  | cons k2 ks2 =>
    by_cases h : dmHasKey k m = true
    · rw [show setPath m (k :: k2 :: ks2) v =
        (if dmHasKey k m then
          m.map (fun e =>
            if e.1 = k then (k, DMValue.map (setPath (childOf e.2) (k2 :: ks2) v)) else e)
         else m ++ [(k, DMValue.map (setPath [] (k2 :: ks2) v))]) from rfl, if_pos h,
        dmLookup_map_self m k (fun w => DMValue.map (setPath (childOf w) (k2 :: ks2) v))]
      obtain ⟨w, hw⟩ := dmLookup_some_of_hasKey m k h
      rw [hw]
      rfl
    · have hf : dmHasKey k m = false := by simpa using h
      rw [show setPath m (k :: k2 :: ks2) v =
        (if dmHasKey k m then
          m.map (fun e =>
            if e.1 = k then (k, DMValue.map (setPath (childOf e.2) (k2 :: ks2) v)) else e)
         else m ++ [(k, DMValue.map (setPath [] (k2 :: ks2) v))]) from rfl, if_neg h,
        dmLookup_append_of_no_key m k (DMValue.map (setPath [] (k2 :: ks2) v)) hf,
        dmLookup_none_of_no_key m k hf]
      rfl

/-- No path resolves in the empty model. -/
theorem getPath_nil_model (q : String) (qs : List String) :
    getPath [] (q :: qs) = none := by
  cases qs <;> rfl

/-- `setPath` at a non-root path does not change the value found at any
address that is prefix-unrelated to the path (a sibling at any depth). -/
theorem getPath_setPath_frame :
    ∀ (ks : List String) (m : DataModel) (k : String) (v : DMValue)
      (q : String) (qs : List String),
      List.isPrefixOf (k :: ks) (q :: qs) = false →
      List.isPrefixOf (q :: qs) (k :: ks) = false →
      getPath (setPath m (k :: ks) v) (q :: qs) = getPath m (q :: qs) := by
  intro ks
  induction ks with
  | nil =>
    intro m k v q qs h1 h2
    by_cases hqk : q = k
    · exfalso
      subst hqk
      simp [List.isPrefixOf] at h1
    · cases qs with
      | nil =>
        simp only [getPath]
        exact dmLookup_setPath_ne m k [] v q hqk
      | cons q2 qs2 =>
        simp only [getPath]
        rw [dmLookup_setPath_ne m k [] v q hqk]
  | cons k2 ks2 ih =>
    intro m k v q qs h1 h2
    by_cases hqk : q = k
    · subst hqk
      cases qs with
      | nil =>
        exfalso
        simp [List.isPrefixOf] at h2
      | cons q2 qs2 =>
        have h1' : List.isPrefixOf (k2 :: ks2) (q2 :: qs2) = false := by
          simpa [List.isPrefixOf] using h1
        have h2' : List.isPrefixOf (q2 :: qs2) (k2 :: ks2) = false := by
          simpa [List.isPrefixOf] using h2
        simp only [getPath]
        rw [dmLookup_setPath_self m q (k2 :: ks2) v]
        cases hm : dmLookup q m with
        | none =>
          simp only [extendValOf]
          rw [ih [] k2 v q2 qs2 h1' h2', getPath_nil_model]
        | some w =>
          simp only [extendValOf]
          rw [ih (childOf w) k2 v q2 qs2 h1' h2']
          cases w with
          | map m2 => rfl
          | str s => simp [childOf, getPath_nil_model]
          | num n => simp [childOf, getPath_nil_model]
          | bool b => simp [childOf, getPath_nil_model]
    · cases qs with
      | nil =>
        simp only [getPath]
        exact dmLookup_setPath_ne m k (k2 :: ks2) v q hqk
      | cons q2 qs2 =>
        simp only [getPath]
        rw [dmLookup_setPath_ne m k (k2 :: ks2) v q hqk]

/-- `setPath` installs exactly the given value at the addressed path. -/
theorem getPath_setPath_self :
    ∀ (ks : List String) (m : DataModel) (k : String) (v : DMValue),
      getPath (setPath m (k :: ks) v) (k :: ks) = some v := by
  intro ks
  induction ks with
  | nil =>
    intro m k v
    simp only [getPath]
    rw [dmLookup_setPath_self m k [] v]
    rfl
  | cons k2 ks2 ih =>
    intro m k v
    simp only [getPath]
    rw [dmLookup_setPath_self m k (k2 :: ks2) v]
    simp only [extendValOf]
    exact ih _ k2 v

/-- Rewriting the entries bound to `k` leaves the other entries' values and
relative order untouched. -/
theorem filter_map_update (m : DataModel) (k : String) (g : DMValue → DMValue) :
    (m.map (fun e => if e.1 = k then (k, g e.2) else e)).filter
        (fun e => e.1 != k) =
      m.filter (fun e => e.1 != k) := by
  induction m with
  | nil => rfl
  | cons e rest ih =>
    by_cases he : e.1 = k
    · simp [List.filter_cons, he, ih]
    · simp [List.filter_cons, he, ih]

/-- Appending an entry for `k` leaves the other entries' values and
relative order untouched. -/
theorem filter_append_k (m : DataModel) (k : String) (v : DMValue) :
    (m ++ [(k, v)]).filter (fun e => e.1 != k) = m.filter (fun e => e.1 != k) := by
  simp [List.filter_append]

/-- `setPath` at a path headed by `k` leaves the entries of every other key
untouched — same values, same relative order. -/
theorem setPath_filter (m : DataModel) (k : String) (ks : List String)
    (v : DMValue) :
    (setPath m (k :: ks) v).filter (fun e => e.1 != k) =
      m.filter (fun e => e.1 != k) := by
  cases ks with
  | nil =>
    by_cases h : dmHasKey k m = true
    · simp only [setPath, if_pos h]
      exact filter_map_update m k (fun _ => v)
    · simp only [setPath, if_neg h]
      exact filter_append_k m k v
  | cons k2 ks2 =>
    by_cases h : dmHasKey k m = true
    · simp only [setPath, if_pos h]
      exact filter_map_update m k
        (fun w => DMValue.map (setPath (childOf w) (k2 :: ks2) v))
    · simp only [setPath, if_neg h]
      exact filter_append_k m k (DMValue.map (setPath [] (k2 :: ks2) v))

/-- C6: a `dataModelUpdate` with an empty or root path replaces the entire
data model; a non-root path replaces exactly the subtree at that path —
sibling entries of the head key keep their values and relative order, the
addressed path afterwards holds the new contents, and every address that is
prefix-unrelated to the path (a sibling at any depth) resolves to the same
value as before. -/
theorem applyUpdate_root_and_frame (M U : DataModel) (P : String)
    (Q : List String) (k : String) (ks : List String) :
    (applyUpdate M "" U = U ∧ applyUpdate M "/" U = U) ∧
    (parsePath P = k :: ks →
      ((applyUpdate M P U).filter (fun e => e.1 != k) =
          M.filter (fun e => e.1 != k) ∧
       getPath (applyUpdate M P U) (k :: ks) = some (DMValue.map U) ∧
       (List.isPrefixOf (k :: ks) Q = false →
        List.isPrefixOf Q (k :: ks) = false →
          getPath (applyUpdate M P U) Q = getPath M Q))) := by
  constructor
  · exact ⟨rfl, rfl⟩
  · intro hp
    have happ : applyUpdate M P U = setPath M (k :: ks) (DMValue.map U) := by
      rw [applyUpdate, hp]
    rw [happ]
    refine ⟨setPath_filter M k ks (DMValue.map U),
      getPath_setPath_self ks M k (DMValue.map U), ?_⟩
    intro h1 h2
    cases Q with
    | nil => simp [List.isPrefixOf] at h2
    | cons q qs => exact getPath_setPath_frame ks M k (DMValue.map U) q qs h1 h2

/-- A concrete model for the C6 witness. -/
def demoModel : DataModel :=
  [("a", DMValue.map [("b", DMValue.str "x"), ("c", DMValue.str "y")]),
   ("d", DMValue.str "z")]

/-- Concrete update contents for the C6 witness. -/
def demoContents : DataModel := [("n", DMValue.num 1)]

/-- Witness for C6: applying an update at path "/a/b" on a concrete model
keeps the top-level siblings, installs the new contents under "/a/b", and
leaves the sibling address "/a/c" unchanged. -/
theorem applyUpdate_root_and_frame_witness :
    (applyUpdate demoModel "/a/b" demoContents).filter (fun e => e.1 != "a") =
        demoModel.filter (fun e => e.1 != "a") ∧
    getPath (applyUpdate demoModel "/a/b" demoContents) ["a", "b"] =
        some (DMValue.map demoContents) ∧
    getPath (applyUpdate demoModel "/a/b" demoContents) ["a", "c"] =
        getPath demoModel ["a", "c"] := by
  have h :=
    (applyUpdate_root_and_frame demoModel demoContents "/a/b" ["a", "c"] "a" ["b"]).2
      rfl
  exact ⟨h.1, h.2.1, h.2.2 rfl rfl⟩
